import Mathlib

set_option maxHeartbeats 1000000

/-!
Shallow embedding of the `benford-law` library (`src/benford.ts`).

Numbers are modelled in the idealized exact semantics: a finite JavaScript
number is a rational, and the non-finite values `NaN`, `Infinity`,
`-Infinity` are explicit constructors.  `Record<string, number>` objects
keyed by digit strings (the decimal digits 1 through 9) are modelled as
association lists keyed by the digit itself; JavaScript object-key iteration order only permutes
entries and no observable value below depends on it.  Code that throws is
modelled with `Except`.
-/

/-- Errors thrown by the library, one constructor per distinct error message
of the source: `notFinite` = "Number must be finite", `nonPositive` =
"Number must be positive and non-zero", `invalidDigit` = "Invalid first
digit extracted", `invalidLength` = "Length must be a positive integer",
`emptyInput` = "Numbers array must be non-empty", `invalidThreshold` =
"Threshold must be between 0 and 1". -/
inductive BenfordError where
  | notFinite
  | nonPositive
  | invalidDigit
  | invalidLength
  | emptyInput
  | invalidThreshold
  deriving DecidableEq, Repr

/-- Model of a JavaScript number: either a finite value (modelled exactly as
a rational — the idealized semantics of the source's floating-point
arithmetic) or one of the non-finite values `NaN`, `Infinity`,
`-Infinity`.  `Number.isFinite` holds exactly on the `fin` constructor. -/
inductive JSNum where
  | fin (q : ℚ)
  | nan
  | inf
  | negInf
  deriving DecidableEq, Repr

/-- Leading decimal digit of a positive rational: models
`parseInt(v.toString()[0], 10)` for a value `v ≥ 1`, whose first character
in decimal notation is the digit `⌊v / 10 ^ ⌊log₁₀ v⌋⌋` (`Int.log 10 v` is
`⌊log₁₀ v⌋` for positive rationals).  In `getFirstDigit` below the argument
is always ≥ 1, so this is a faithful model of the string-indexing step. -/
def leadingDigit (v : ℚ) : ℕ :=
  (⌊v / (10 : ℚ) ^ Int.log 10 v⌋).toNat

/-- Translation of `getFirstDigit` (src/benford.ts).  The finiteness check
comes first, then the sign check; then
`normalized = absNumber >= 1 ? absNumber : absNumber * 10 ** Math.ceil(-Math.log10(absNumber))`
— in exact arithmetic `⌈-log₁₀ a⌉ = ⌈log₁₀ a⁻¹⌉`, written `Int.clog 10 a⁻¹`
— then the first character of `normalized.toString()` is parsed as the
digit, and a defensive range check rejects anything outside 1..9. -/
def getFirstDigit (number : JSNum) : Except BenfordError ℕ :=
  match number with
  | .nan | .inf | .negInf => .error .notFinite
  | .fin x =>
    if x ≤ 0 then .error .nonPositive
    else
      let absNumber := |x|
      let normalized :=
        if 1 ≤ absNumber then absNumber
        else absNumber * (10 : ℚ) ^ Int.clog 10 absNumber⁻¹
      let firstDigit := leadingDigit normalized
      if firstDigit < 1 ∨ 9 < firstDigit then .error .invalidDigit
      else .ok firstDigit

/-- Specification-side restatement of the leading-digit algorithm, following
the spec's words: with `a = |x|`, if `a ≥ 1` the result is
`⌊a / 10 ^ ⌊log₁₀ a⌋⌋`; if `a < 1` the same extraction is applied to
`a * 10 ^ ⌈-log₁₀ a⌉`, and `⌈-t⌉ = -⌊t⌋` for every real `t`. -/
def specLeadingDigit (x : ℚ) : ℕ :=
  let a := |x|
  if 1 ≤ a then (⌊a / (10 : ℚ) ^ Int.log 10 a⌋).toNat
  else
    let b := a * (10 : ℚ) ^ (-Int.log 10 a)
    (⌊b / (10 : ℚ) ^ Int.log 10 b⌋).toNat

/-- Validity predicate for analyzer inputs: a finite, strictly positive
number — exactly the inputs on which `getFirstDigit` does not throw a
`notFinite` or `nonPositive` error. -/
def isValidNum : JSNum → Bool
  | .fin q => decide (0 < q)
  | _ => false

/-- Error that `getFirstDigit` raises on an invalid (non-finite or
non-positive) input: finiteness is checked before sign. -/
def extractionError : JSNum → BenfordError
  | .fin _ => .nonPositive
  | _ => .notFinite

/-- Translation of `generateRandomNumber` (src/benford.ts):
`Math.random() * (maximum - minimum) + minimum`, with the `Math.random()`
draw `u` passed explicitly. -/
noncomputable def generateRandomNumber (minimum maximum u : ℝ) : ℝ :=
  u * (maximum - minimum) + minimum

/-- Translation of `generateBenfordLawNumber` (src/benford.ts):
`Math.exp(generateRandomNumber(Math.log(1), Math.log(1000)))`, with the
underlying uniform draw `u` passed explicitly. -/
noncomputable def generateBenfordLawNumber (u : ℝ) : ℝ :=
  Real.exp (generateRandomNumber (Real.log 1) (Real.log 1000) u)

/-- Translation of `generateBenfordLawNumbers` (src/benford.ts): rejects a
`length` that is not a positive integer (`!Number.isInteger(length) || length <= 0`),
otherwise builds an array of `length` elements, the i-th from the i-th
`Math.random()` draw. -/
noncomputable def generateBenfordLawNumbers (length : ℚ) (draws : ℕ → ℝ) :
    Except BenfordError (List ℝ) :=
  if length.den ≠ 1 ∨ length ≤ 0 then .error .invalidLength
  else .ok ((List.range length.num.toNat).map fun i => generateBenfordLawNumber (draws i))

/-- Benford reference probabilities, constant `benfordProb` of the source. -/
def benfordProb : List (ℕ × ℚ) :=
  [(1, 301/1000), (2, 176/1000), (3, 125/1000), (4, 97/1000),
   (5, 79/1000), (6, 67/1000), (7, 58/1000), (8, 51/1000), (9, 46/1000)]

/-- Digit extraction mapped over the whole input,
`numbers.map(getFirstDigit)`: the first throw aborts the whole map, so the
result is either every digit in order or the error of the first invalid
element. -/
def extractDigits : List JSNum → Except BenfordError (List ℕ)
  | [] => .ok []
  | x :: xs =>
    match getFirstDigit x with
    | .error e => .error e
    | .ok d =>
      match extractDigits xs with
      | .error e => .error e
      | .ok ds => .ok (d :: ds)

/-- One step of the counting loop:
`firstDigitCounts[key] = (firstDigitCounts[key] || 0) + 1` — update the
existing entry in place, or append a fresh entry with count 1. -/
def bump : List (ℕ × ℕ) → ℕ → List (ℕ × ℕ)
  | [], digit => [(digit, 1)]
  | (k, v) :: rest, digit =>
    if k = digit then (k, v + 1) :: rest else (k, v) :: bump rest digit

/-- The counting loop of `processBenfordLaw`: tally each extracted digit
into an initially empty mapping. -/
def countsFrom (digits : List ℕ) : List (ℕ × ℕ) :=
  digits.foldl bump []

/-- The probability loop of `processBenfordLaw`:
`firstDigitProbabilities[digit] = count / totalCount` for every entry of the
count mapping. -/
def probsFrom (counts : List (ℕ × ℕ)) (totalCount : ℚ) : List (ℕ × ℚ) :=
  counts.map fun p => (p.1, (p.2 : ℚ) / totalCount)

/-- The accuracy loop of `processBenfordLaw`: iterate over the observed
probability entries and, when the digit also has a reference probability
(`benfordProbability !== undefined`), record
`Math.abs(benfordProbability - probability)`; digits without a reference
entry are skipped. -/
def accuraciesFrom (probs refDist : List (ℕ × ℚ)) : List (ℕ × ℚ) :=
  probs.filterMap fun p =>
    (List.lookup p.1 refDist).map fun bp => (p.1, |bp - p.2|)

/-- The verdict of `processBenfordLaw`: `every` over the reference entries;
a digit with no observed probability is treated as probability 0
(`firstDigitProbability || 0` — an observed probability is `count / N` with
`count ≥ 1`, so `|| 0` only replaces a missing entry). -/
def isBenfordCheck (probs refDist : List (ℕ × ℚ)) (threshold : ℚ) : Bool :=
  refDist.all fun p =>
    decide (|(List.lookup p.1 probs).getD 0 - p.2| < threshold)

/-- Result record of `processBenfordLaw`. -/
structure AnalysisReport where
  isFollowingBenfordLaw : Bool
  firstDigitCounts : List (ℕ × ℕ)
  firstDigitProbabilities : List (ℕ × ℚ)
  firstDigitAccuracies : List (ℕ × ℚ)
  deriving DecidableEq, Repr

/-- Translation of `processBenfordLaw` (src/benford.ts): emptiness check,
then threshold check, then digit extraction (first invalid element aborts),
then counts, probabilities, accuracies and the verdict. -/
def processBenfordLaw (numbers : List JSNum) (threshold : ℚ)
    (benfordProbabilities : List (ℕ × ℚ)) : Except BenfordError AnalysisReport :=
  if numbers.length = 0 then .error .emptyInput
  else if threshold ≤ 0 ∨ 1 ≤ threshold then .error .invalidThreshold
  else
    match extractDigits numbers with
    | .error e => .error e
    | .ok firstDigits =>
      let firstDigitCounts := countsFrom firstDigits
      let totalCount : ℚ := numbers.length
      let firstDigitProbabilities := probsFrom firstDigitCounts totalCount
      let firstDigitAccuracies := accuraciesFrom firstDigitProbabilities benfordProbabilities
      .ok { isFollowingBenfordLaw :=
              isBenfordCheck firstDigitProbabilities benfordProbabilities threshold,
            firstDigitCounts := firstDigitCounts,
            firstDigitProbabilities := firstDigitProbabilities,
            firstDigitAccuracies := firstDigitAccuracies }

/-! ### Digit-extraction lemmas -/

/-- Bracketing characterization of `Int.log 10` on positive rationals. -/
lemma log10_eq (q : ℚ) (e : ℤ) (h0 : 0 < q) (h1 : (10 : ℚ) ^ e ≤ q)
    (h2 : q < (10 : ℚ) ^ (e + 1)) : Int.log 10 q = e := by
  have hb : 1 < (10 : ℕ) := by norm_num
  have hle : e ≤ Int.log 10 q := (Int.zpow_le_iff_le_log hb h0).mp (by exact_mod_cast h1)
  have hlt : Int.log 10 q < e + 1 := (Int.lt_zpow_iff_log_lt hb h0).mp (by exact_mod_cast h2)
  omega

/-- Every positive rational lies between consecutive powers of ten. -/
lemma log10_bracket (q : ℚ) (h0 : 0 < q) :
    (10 : ℚ) ^ Int.log 10 q ≤ q ∧ q < (10 : ℚ) ^ (Int.log 10 q + 1) := by
  constructor
  · exact_mod_cast Int.zpow_log_le_self (by norm_num) h0
  · exact_mod_cast Int.lt_zpow_succ_log_self (by norm_num) q

/-- The leading digit of a positive rational is between 1 and 9. -/
lemma leadingDigit_bounds (v : ℚ) (h0 : 0 < v) :
    1 ≤ leadingDigit v ∧ leadingDigit v ≤ 9 := by
  obtain ⟨h1, h2⟩ := log10_bracket v h0
  have hpow : (0 : ℚ) < (10 : ℚ) ^ Int.log 10 v := zpow_pos (by norm_num) _
  have hge : (1 : ℚ) ≤ v / (10 : ℚ) ^ Int.log 10 v := (one_le_div hpow).mpr h1
  have hlt : v / (10 : ℚ) ^ Int.log 10 v < 10 := by
    rw [div_lt_iff₀ hpow]
    calc v < (10 : ℚ) ^ (Int.log 10 v + 1) := h2
    _ = 10 * (10 : ℚ) ^ Int.log 10 v := by
          rw [zpow_add_one₀ (by norm_num : (10 : ℚ) ≠ 0)]; ring
  have hf1 : 1 ≤ ⌊v / (10 : ℚ) ^ Int.log 10 v⌋ := Int.le_floor.mpr (by exact_mod_cast hge)
  have hf2 : ⌊v / (10 : ℚ) ^ Int.log 10 v⌋ < 10 := Int.floor_lt.mpr (by exact_mod_cast hlt)
  unfold leadingDigit
  omega

/-- The normalization step keeps a positive argument positive. -/
lemma normalized_pos (x : ℚ) (hx : 0 < x) :
    (0 : ℚ) < if 1 ≤ x then x else x * (10 : ℚ) ^ (-Int.log 10 x) := by
  by_cases h1 : 1 ≤ x
  · simpa [h1] using hx
  · simp only [if_neg h1]
    exact mul_pos hx (zpow_pos (by norm_num) _)

/-- The spec's leading-digit formula is the leading digit of the
normalized value. -/
lemma specLeadingDigit_eq (x : ℚ) (hx : 0 < x) :
    specLeadingDigit x =
      leadingDigit (if 1 ≤ x then x else x * (10 : ℚ) ^ (-Int.log 10 x)) := by
  have habs : |x| = x := abs_of_pos hx
  simp only [specLeadingDigit, leadingDigit, habs]
  by_cases h1 : 1 ≤ x <;> simp [h1]

/-- On a positive finite input, `getFirstDigit` succeeds with the value
given by the spec's logarithm-and-floor formula. -/
lemma getFirstDigit_fin_pos (x : ℚ) (hx : 0 < x) :
    getFirstDigit (.fin x) = .ok (specLeadingDigit x) := by
  have habs : |x| = x := abs_of_pos hx
  have hb := leadingDigit_bounds _ (normalized_pos x hx)
  simp only [getFirstDigit, habs, if_neg (not_le.mpr hx), Int.clog_inv,
    specLeadingDigit_eq x hx]
  rw [if_neg (by omega)]

/-- The value produced by the extraction formula is in 1..9. -/
lemma specLeadingDigit_bounds (x : ℚ) (hx : 0 < x) :
    1 ≤ specLeadingDigit x ∧ specLeadingDigit x ≤ 9 := by
  rw [specLeadingDigit_eq x hx]
  exact leadingDigit_bounds _ (normalized_pos x hx)

/-- Rationals in `[1, 10)` have `⌊log₁₀⌋ = 0`. -/
lemma log10_eq_zero (q : ℚ) (h1 : 1 ≤ q) (h2 : q < 10) : Int.log 10 q = 0 :=
  log10_eq q 0 (lt_of_lt_of_le one_pos h1) (by simpa using h1) (by simpa using h2)

/-- A single-digit value is its own leading digit. -/
lemma leadingDigit_digit (k : ℕ) (h1 : 1 ≤ k) (h9 : k ≤ 9) :
    leadingDigit (k : ℚ) = k := by
  have hx1 : (1 : ℚ) ≤ (k : ℚ) := by exact_mod_cast h1
  have hx9 : (k : ℚ) < 10 := by
    have : (k : ℚ) ≤ 9 := by exact_mod_cast h9
    linarith
  simp [leadingDigit, log10_eq_zero _ hx1 hx9]

/-- Extraction at a single-digit natural number input returns that digit. -/
lemma getFirstDigit_digit (k : ℕ) (h1 : 1 ≤ k) (h9 : k ≤ 9) :
    getFirstDigit (.fin (k : ℚ)) = .ok k := by
  have hk : (0 : ℚ) < (k : ℚ) := by exact_mod_cast h1
  have hx1 : (1 : ℚ) ≤ (k : ℚ) := by exact_mod_cast h1
  rw [getFirstDigit_fin_pos _ hk, specLeadingDigit_eq _ hk, if_pos hx1,
    leadingDigit_digit k h1 h9]

/-! ### Counting-loop lemmas -/

/-- Bumping a digit raises the total count by one. -/
lemma bump_sum (m : List (ℕ × ℕ)) (d : ℕ) :
    ((bump m d).map Prod.snd).sum = (m.map Prod.snd).sum + 1 := by
  induction m with
  | nil => simp [bump]
  | cons p rest ih =>
    obtain ⟨k, v⟩ := p
    by_cases h : k = d
    · simp only [bump, if_pos h, List.map_cons, List.sum_cons]
      omega
    · simp only [bump, if_neg h, List.map_cons, List.sum_cons, ih]
      omega

/-- The counts produced from a digit list total its length. -/
lemma countsFrom_sum (ds : List ℕ) :
    ((countsFrom ds).map Prod.snd).sum = ds.length := by
  suffices h : ∀ m : List (ℕ × ℕ),
      ((ds.foldl bump m).map Prod.snd).sum = (m.map Prod.snd).sum + ds.length by
    simpa [countsFrom] using h []
  induction ds with
  | nil => intro m; simp
  | cons d rest ih =>
    intro m
    simp only [List.foldl_cons, ih (bump m d), bump_sum, List.length_cons]
    omega

/-- Bumping one digit leaves the entries of other digits alone. -/
lemma lookup_bump_ne (m : List (ℕ × ℕ)) (d d' : ℕ) (h : d ≠ d') :
    List.lookup d (bump m d') = List.lookup d m := by
  induction m with
  | nil => simp [bump, List.lookup_cons, beq_false_of_ne h]
  | cons p rest ih =>
    obtain ⟨k, v⟩ := p
    by_cases hk : k = d'
    · subst hk
      simp [bump, List.lookup_cons, beq_false_of_ne h]
    · simp [bump, if_neg hk, List.lookup_cons, ih]

/-- Auxiliary form of `countsFrom_lookup_none` for an arbitrary seed. -/
lemma foldl_bump_lookup_none (ds : List ℕ) (d : ℕ) :
    ∀ m : List (ℕ × ℕ), List.lookup d m = none → d ∉ ds →
      List.lookup d (ds.foldl bump m) = none := by
  induction ds with
  | nil => intro m hm _; simpa using hm
  | cons x rest ih =>
    intro m hm hmem
    have hne : d ≠ x := fun hdx => hmem (hdx ▸ List.mem_cons_self x rest)
    have hrest : d ∉ rest := fun hr => hmem (List.mem_cons_of_mem x hr)
    simpa [List.foldl_cons] using
      ih (bump m x) (by rw [lookup_bump_ne m d x hne]; exact hm) hrest

/-- Digits never tallied stay absent from the count mapping. -/
lemma countsFrom_lookup_none (ds : List ℕ) (d : ℕ) (hd : d ∉ ds) :
    List.lookup d (countsFrom ds) = none :=
  foldl_bump_lookup_none ds d [] (by simp) hd

/-- Membership in the keys of a bumped mapping. -/
lemma mem_keys_bump (m : List (ℕ × ℕ)) (d a : ℕ) :
    a ∈ (bump m d).map Prod.fst ↔ a ∈ m.map Prod.fst ∨ a = d := by
  induction m with
  | nil => simp [bump]
  | cons p rest ih =>
    obtain ⟨k, v⟩ := p
    by_cases hk : k = d
    · subst hk; simp [bump]
      tauto
    · simp [bump, if_neg hk, ih]
      tauto

/-- Bumping preserves distinctness of the digit keys. -/
lemma nodup_keys_bump (m : List (ℕ × ℕ)) (d : ℕ)
    (h : (m.map Prod.fst).Nodup) : ((bump m d).map Prod.fst).Nodup := by
  induction m with
  | nil => simp [bump]
  | cons p rest ih =>
    obtain ⟨k, v⟩ := p
    simp only [List.map_cons, List.nodup_cons] at h
    by_cases hk : k = d
    · subst hk
      simpa [bump, List.nodup_cons] using h
    · simp only [bump, if_neg hk, List.map_cons, List.nodup_cons]
      refine ⟨fun hmem => ?_, ih h.2⟩
      rcases (mem_keys_bump rest d k).mp hmem with hin | hkd
      · exact h.1 hin
      · exact hk hkd

/-- The count mapping has pairwise-distinct digit keys. -/
lemma countsFrom_nodup (ds : List ℕ) :
    ((countsFrom ds).map Prod.fst).Nodup := by
  suffices h : ∀ m : List (ℕ × ℕ), (m.map Prod.fst).Nodup →
      ((ds.foldl bump m).map Prod.fst).Nodup by
    exact h [] (by simp)
  induction ds with
  | nil => intro m hm; simpa using hm
  | cons x rest ih =>
    intro m hm
    simpa [List.foldl_cons] using ih (bump m x) (nodup_keys_bump m x hm)

/-! ### Probability- and accuracy-loop lemmas -/

/-- Looking a digit up in the probability mapping divides its count by the
total. -/
lemma lookup_probsFrom (counts : List (ℕ × ℕ)) (totalCount : ℚ) (d : ℕ) :
    List.lookup d (probsFrom counts totalCount) =
      (List.lookup d counts).map fun v => (v : ℚ) / totalCount := by
  induction counts with
  | nil => simp [probsFrom]
  | cons p rest ih =>
    obtain ⟨k, v⟩ := p
    by_cases hk : d = k
    · subst hk
      simp [probsFrom, List.lookup_cons]
    · simpa [probsFrom, List.lookup_cons, beq_false_of_ne hk] using ih

/-- The probability loop keeps the digit keys unchanged. -/
lemma keys_probsFrom (counts : List (ℕ × ℕ)) (totalCount : ℚ) :
    (probsFrom counts totalCount).map Prod.fst = counts.map Prod.fst := by
  induction counts with
  | nil => simp [probsFrom]
  | cons p rest _ => simp [probsFrom]

/-- The probability values total the count total divided by `totalCount`. -/
lemma probsFrom_sum (counts : List (ℕ × ℕ)) (totalCount : ℚ) :
    ((probsFrom counts totalCount).map Prod.snd).sum =
      ((counts.map Prod.snd).sum : ℕ) / totalCount := by
  induction counts with
  | nil => simp [probsFrom]
  | cons p rest ih =>
    obtain ⟨k, v⟩ := p
    simp only [probsFrom, List.map_cons, List.sum_cons] at ih ⊢
    rw [ih]
    push_cast
    rw [add_div]

/-- Digits outside the observed probability mapping get no accuracy entry. -/
lemma lookup_accuraciesFrom_none (probs refDist : List (ℕ × ℚ)) (d : ℕ)
    (hd : d ∉ probs.map Prod.fst) :
    List.lookup d (accuraciesFrom probs refDist) = none := by
  induction probs with
  | nil => simp [accuraciesFrom]
  | cons p rest ih =>
    obtain ⟨k, v⟩ := p
    simp only [List.map_cons, List.mem_cons, not_or] at hd
    have hrest := ih hd.2
    cases href : List.lookup k refDist with
    | none => simpa [accuraciesFrom, href] using hrest
    | some bp =>
      simp only [accuraciesFrom, List.filterMap_cons, href, Option.map_some'] at hrest ⊢
      simpa [List.lookup_cons, beq_false_of_ne hd.1] using hrest

/-- Characterization of the accuracy mapping, for distinct observed keys:
a digit has an accuracy entry exactly when it has both an observed
probability and a reference probability, and the entry is their absolute
difference. -/
lemma lookup_accuraciesFrom (probs refDist : List (ℕ × ℚ))
    (hnd : (probs.map Prod.fst).Nodup) (d : ℕ) :
    List.lookup d (accuraciesFrom probs refDist) =
      (List.lookup d probs).bind fun p =>
        (List.lookup d refDist).map fun bp => |bp - p| := by
  induction probs with
  | nil => simp [accuraciesFrom]
  | cons p rest ih =>
    obtain ⟨k, v⟩ := p
    simp only [List.map_cons, List.nodup_cons] at hnd
    by_cases hk : d = k
    · subst hk
      cases href : List.lookup d refDist with
      | none =>
        simp only [accuraciesFrom, List.filterMap_cons, href, Option.map_none']
        rw [show (rest.filterMap fun p =>
            (List.lookup p.1 refDist).map fun bp => (p.1, |bp - p.2|)) =
            accuraciesFrom rest refDist from rfl]
        simp [lookup_accuraciesFrom_none rest refDist d hnd.1, List.lookup_cons, href]
      | some bp =>
        simp [accuraciesFrom, List.filterMap_cons, href, List.lookup_cons]
    · cases href : List.lookup k refDist with
      | none =>
        simpa [accuraciesFrom, List.filterMap_cons, href, List.lookup_cons,
          beq_false_of_ne hk] using ih hnd.2
      | some bp =>
        simpa [accuraciesFrom, List.filterMap_cons, href, List.lookup_cons,
          beq_false_of_ne hk] using ih hnd.2

/-! ### Extraction-over-the-array lemmas -/

/-- A valid input is a positive finite number, and extraction succeeds on it
with a digit in 1..9. -/
lemma isValidNum_ok (x : JSNum) (hx : isValidNum x = true) :
    ∃ d, getFirstDigit x = .ok d ∧ 1 ≤ d ∧ d ≤ 9 := by
  cases x with
  | fin q =>
    have hq : 0 < q := by simpa [isValidNum] using hx
    exact ⟨specLeadingDigit q, getFirstDigit_fin_pos q hq, specLeadingDigit_bounds q hq⟩
  | nan => simp [isValidNum] at hx
  | inf => simp [isValidNum] at hx
  | negInf => simp [isValidNum] at hx

/-- An invalid input makes extraction fail, with the finiteness error taking
precedence over the sign error. -/
lemma isValidNum_error (x : JSNum) (hx : isValidNum x = false) :
    getFirstDigit x = .error (extractionError x) := by
  cases x with
  | fin q =>
    have hq : q ≤ 0 := by simpa [isValidNum] using hx
    simp [getFirstDigit, extractionError, hq]
  | nan => rfl
  | inf => rfl
  | negInf => rfl

/-- Extraction over the array preserves the element count. -/
lemma extractDigits_length (numbers : List JSNum) (ds : List ℕ)
    (h : extractDigits numbers = .ok ds) : ds.length = numbers.length := by
  induction numbers generalizing ds with
  | nil =>
    simp only [extractDigits] at h
    cases h
    rfl
  | cons x xs ih =>
    simp only [extractDigits] at h
    cases hx : getFirstDigit x with
    | error e => rw [hx] at h; cases h
    | ok d =>
      rw [hx] at h
      cases hs : extractDigits xs with
      | error e => rw [hs] at h; cases h
      | ok ds' =>
        rw [hs] at h
        cases h
        simp [ih ds' hs]

/-- A digit appears among the extracted digits exactly when some input
element extracts to it. -/
lemma extractDigits_mem (numbers : List JSNum) (ds : List ℕ)
    (h : extractDigits numbers = .ok ds) (d : ℕ) :
    d ∈ ds ↔ ∃ x ∈ numbers, getFirstDigit x = .ok d := by
  induction numbers generalizing ds with
  | nil =>
    simp only [extractDigits] at h
    cases h
    simp
  | cons x xs ih =>
    simp only [extractDigits] at h
    cases hx : getFirstDigit x with
    | error e => rw [hx] at h; cases h
    | ok d0 =>
      rw [hx] at h
      cases hs : extractDigits xs with
      | error e => rw [hs] at h; cases h
      | ok ds' =>
        rw [hs] at h
        cases h
        constructor
        · intro hmem
          rcases List.mem_cons.mp hmem with hd | hd
          · exact ⟨x, List.mem_cons_self x xs, hd ▸ hx⟩
          · obtain ⟨y, hy, hyd⟩ := (ih ds' hs).mp hd
            exact ⟨y, List.mem_cons_of_mem x hy, hyd⟩
        · rintro ⟨y, hy, hyd⟩
          rcases List.mem_cons.mp hy with rfl | hy'
          · rw [hx] at hyd
            cases hyd
            exact List.mem_cons_self _ _
          · exact List.mem_cons_of_mem _ ((ih ds' hs).mpr ⟨y, hy', hyd⟩)

/-- On an all-valid array, extraction over the array succeeds. -/
lemma extractDigits_ok (numbers : List JSNum)
    (h : ∀ x ∈ numbers, isValidNum x = true) :
    ∃ ds, extractDigits numbers = .ok ds := by
  induction numbers with
  | nil => exact ⟨[], rfl⟩
  | cons x xs ih =>
    obtain ⟨d, hd, -⟩ := isValidNum_ok x (h x (List.mem_cons_self x xs))
    obtain ⟨ds, hds⟩ := ih fun y hy => h y (List.mem_cons_of_mem x hy)
    exact ⟨d :: ds, by simp [extractDigits, hd, hds]⟩

/-- Extraction over the array stops at the first invalid element and
reports its error. -/
lemma extractDigits_error_first (pre : List JSNum) (x : JSNum) (post : List JSNum)
    (hpre : ∀ y ∈ pre, isValidNum y = true) (hx : isValidNum x = false) :
    extractDigits (pre ++ x :: post) = .error (extractionError x) := by
  induction pre with
  | nil =>
    simp [extractDigits, isValidNum_error x hx]
  | cons y ys ih =>
    obtain ⟨d, hd, -⟩ := isValidNum_ok y (hpre y (List.mem_cons_self y ys))
    have := ih fun z hz => hpre z (List.mem_cons_of_mem y hz)
    simp [extractDigits, hd, this]

/-! ### Analyzer evaluation lemmas -/

/-- Master evaluation lemma: on a non-empty array with a valid threshold
whose digits extract successfully, `processBenfordLaw` returns the report
assembled by the four loops. -/
lemma processBenfordLaw_ok (numbers : List JSNum) (threshold : ℚ)
    (refDist : List (ℕ × ℚ)) (ds : List ℕ)
    (hne : numbers ≠ []) (ht0 : 0 < threshold) (ht1 : threshold < 1)
    (hds : extractDigits numbers = .ok ds) :
    processBenfordLaw numbers threshold refDist =
      .ok { isFollowingBenfordLaw :=
              isBenfordCheck (probsFrom (countsFrom ds) numbers.length) refDist threshold,
            firstDigitCounts := countsFrom ds,
            firstDigitProbabilities := probsFrom (countsFrom ds) numbers.length,
            firstDigitAccuracies :=
              accuraciesFrom (probsFrom (countsFrom ds) numbers.length) refDist } := by
  have hlen : ¬numbers.length = 0 := by simpa [List.length_eq_zero] using hne
  have hth : ¬(threshold ≤ 0 ∨ 1 ≤ threshold) := by push_neg; exact ⟨ht0, ht1⟩
  simp only [processBenfordLaw, if_neg hlen, if_neg hth, hds]

/-- The emptiness check fires first: an empty array is rejected whatever the
threshold and reference are. -/
lemma processBenfordLaw_empty (threshold : ℚ) (refDist : List (ℕ × ℚ)) :
    processBenfordLaw [] threshold refDist = .error .emptyInput := by
  simp [processBenfordLaw]

/-- The threshold check fires second: a non-empty array with an
out-of-range threshold is rejected before any element is examined. -/
lemma processBenfordLaw_threshold (numbers : List JSNum) (threshold : ℚ)
    (refDist : List (ℕ × ℚ)) (hne : numbers ≠ [])
    (ht : threshold ≤ 0 ∨ 1 ≤ threshold) :
    processBenfordLaw numbers threshold refDist = .error .invalidThreshold := by
  have hlen : ¬numbers.length = 0 := by simpa [List.length_eq_zero] using hne
  simp [processBenfordLaw, if_neg hlen, if_pos ht, hne]

/-- A digit-extraction failure propagates unchanged out of the analyzer. -/
lemma processBenfordLaw_extract_error (numbers : List JSNum) (threshold : ℚ)
    (refDist : List (ℕ × ℚ)) (e : BenfordError)
    (hne : numbers ≠ []) (ht0 : 0 < threshold) (ht1 : threshold < 1)
    (he : extractDigits numbers = .error e) :
    processBenfordLaw numbers threshold refDist = .error e := by
  have hlen : ¬numbers.length = 0 := by simpa [List.length_eq_zero] using hne
  have hth : ¬(threshold ≤ 0 ∨ 1 ≤ threshold) := by push_neg; exact ⟨ht0, ht1⟩
  simp only [processBenfordLaw, if_neg hlen, if_neg hth, he]

/-! ### Concrete extraction values -/

/-- Extraction at 0.5: the sub-1 normalization shifts 5 into the ones
place. -/
lemma getFirstDigit_half : getFirstDigit (.fin (1/2 : ℚ)) = .ok 5 := by
  have hx : (0 : ℚ) < 1/2 := by norm_num
  have hlog : Int.log 10 ((1 : ℚ)/2) = -1 :=
    log10_eq _ (-1) hx (by norm_num) (by norm_num)
  have hfive : leadingDigit (5 : ℚ) = 5 := by
    have hl5 : Int.log 10 (5 : ℚ) = 0 := log10_eq_zero _ (by norm_num) (by norm_num)
    unfold leadingDigit
    rw [hl5]
    norm_num
    decide
  have harg : (1/2 : ℚ) * (10 : ℚ) ^ (-Int.log 10 ((1 : ℚ)/2)) = 5 := by
    rw [hlog]; norm_num
  rw [getFirstDigit_fin_pos _ hx, specLeadingDigit_eq _ hx,
    if_neg (by norm_num : ¬(1 : ℚ) ≤ 1/2), harg, hfive]

/-- Extraction at 1000: a power of ten has leading digit 1. -/
lemma getFirstDigit_thousand : getFirstDigit (.fin (1000 : ℚ)) = .ok 1 := by
  have hx : (0 : ℚ) < 1000 := by norm_num
  have hlog : Int.log 10 (1000 : ℚ) = 3 :=
    log10_eq _ 3 hx (by norm_num) (by norm_num)
  have hld : leadingDigit (1000 : ℚ) = 1 := by
    unfold leadingDigit
    rw [hlog]
    norm_num
  rw [getFirstDigit_fin_pos _ hx, specLeadingDigit_eq _ hx,
    if_pos (by norm_num : (1 : ℚ) ≤ 1000), hld]

/-- Extraction at 1.5: fractional digits are ignored once the value is at
least one. -/
lemma getFirstDigit_threeHalves : getFirstDigit (.fin (3/2 : ℚ)) = .ok 1 := by
  have hx : (0 : ℚ) < 3/2 := by norm_num
  have hlog : Int.log 10 ((3 : ℚ)/2) = 0 := log10_eq_zero _ (by norm_num) (by norm_num)
  have hld : leadingDigit ((3 : ℚ)/2) = 1 := by
    unfold leadingDigit
    rw [hlog]
    norm_num
  rw [getFirstDigit_fin_pos _ hx, specLeadingDigit_eq _ hx,
    if_pos (by norm_num : (1 : ℚ) ≤ 3/2), hld]

/-! ### Claim theorems: digit extraction -/

/-- C4: for every finite x > 0, `getFirstDigit` returns, without failing,
the leading significant decimal digit computed by the logarithm-and-floor
algorithm (`specLeadingDigit`: for a = |x| ≥ 1 the digit
⌊a / 10 ^ ⌊log₁₀ a⌋⌋, for a < 1 the same extraction applied to
a·10^⌈-log₁₀ a⌉), a value in 1..9; in particular 0.5 yields 5, 1000 yields
1 and 1.5 yields 1.  The `invalidDigit` failure branch of the translation
is thereby unreachable on positive finite inputs. -/
theorem getFirstDigit_log_floor_spec (x : ℚ) (hx : 0 < x) :
    getFirstDigit (.fin x) = .ok (specLeadingDigit x) ∧
    1 ≤ specLeadingDigit x ∧ specLeadingDigit x ≤ 9 ∧
    getFirstDigit (.fin (1/2 : ℚ)) = .ok 5 ∧
    getFirstDigit (.fin (1000 : ℚ)) = .ok 1 ∧
    getFirstDigit (.fin (3/2 : ℚ)) = .ok 1 :=
  ⟨getFirstDigit_fin_pos x hx, (specLeadingDigit_bounds x hx).1,
   (specLeadingDigit_bounds x hx).2, getFirstDigit_half, getFirstDigit_thousand,
   getFirstDigit_threeHalves⟩

/-- Witness for `getFirstDigit_log_floor_spec`, instantiated at x = 2. -/
theorem getFirstDigit_log_floor_spec_witness :
    (0 : ℚ) < 2 ∧
    (getFirstDigit (.fin (2 : ℚ)) = .ok (specLeadingDigit 2) ∧
     1 ≤ specLeadingDigit 2 ∧ specLeadingDigit 2 ≤ 9 ∧
     getFirstDigit (.fin (1/2 : ℚ)) = .ok 5 ∧
     getFirstDigit (.fin (1000 : ℚ)) = .ok 1 ∧
     getFirstDigit (.fin (3/2 : ℚ)) = .ok 1) :=
  ⟨by decide, getFirstDigit_log_floor_spec 2 (by decide)⟩

/-- C7: extraction checks finiteness before sign — NaN and ±∞ give the
finiteness error even when also non-positive, finite non-positive values
give the sign error, and extraction fails exactly on the non-finite or
non-positive inputs. -/
theorem getFirstDigit_error_taxonomy (x : JSNum) :
    ((getFirstDigit x = .error .notFinite) ↔ (x = .nan ∨ x = .inf ∨ x = .negInf)) ∧
    ((getFirstDigit x = .error .nonPositive) ↔ ∃ q, x = .fin q ∧ q ≤ 0) ∧
    ((∃ e, getFirstDigit x = .error e) ↔ isValidNum x = false) := by
  cases x with
  | fin q =>
    by_cases hq : q ≤ 0
    · have herr : getFirstDigit (.fin q) = .error .nonPositive := by
        simp [getFirstDigit, hq]
      refine ⟨by simp [herr], iff_of_true herr ⟨q, rfl, hq⟩,
        iff_of_true ⟨.nonPositive, herr⟩ ?_⟩
      simp [isValidNum, not_lt.mpr hq]
    · have hok : getFirstDigit (.fin q) = .ok (specLeadingDigit q) :=
        getFirstDigit_fin_pos q (not_le.mp hq)
      refine ⟨by simp [hok], ?_, ?_⟩
      · refine iff_of_false (by simp [hok]) ?_
        rintro ⟨q', heq, hle⟩
        cases heq
        exact hq hle
      · refine iff_of_false (by simp [hok]) ?_
        simp [isValidNum, not_le.mp hq]
  | nan =>
    refine ⟨iff_of_true rfl (Or.inl rfl), by simp [getFirstDigit],
      iff_of_true ⟨.notFinite, rfl⟩ rfl⟩
  | inf =>
    refine ⟨iff_of_true rfl (Or.inr (Or.inl rfl)), by simp [getFirstDigit],
      iff_of_true ⟨.notFinite, rfl⟩ rfl⟩
  | negInf =>
    refine ⟨iff_of_true rfl (Or.inr (Or.inr rfl)), by simp [getFirstDigit],
      iff_of_true ⟨.notFinite, rfl⟩ rfl⟩

/-- Witness for `getFirstDigit_error_taxonomy`, instantiated at -∞ (and at
a finite non-positive input via the taxonomy's second component). -/
theorem getFirstDigit_error_taxonomy_witness :
    getFirstDigit .negInf = .error .notFinite ∧
    getFirstDigit (.fin 0) = .error .nonPositive :=
  ⟨(getFirstDigit_error_taxonomy .negInf).1.mpr (Or.inr (Or.inr rfl)),
   (getFirstDigit_error_taxonomy (.fin 0)).2.1.mpr ⟨0, rfl, le_refl 0⟩⟩

/-! ### Claim theorems: sample generation -/

/-- A single generated sample lies in [1, 1000] when the underlying uniform
draw lies in [0, 1). -/
lemma generateBenfordLawNumber_range (u : ℝ) (h0 : 0 ≤ u) (h1 : u < 1) :
    1 ≤ generateBenfordLawNumber u ∧ generateBenfordLawNumber u ≤ 1000 := by
  unfold generateBenfordLawNumber generateRandomNumber
  rw [Real.log_one]
  have hlogpos : (0 : ℝ) < Real.log 1000 := Real.log_pos (by norm_num)
  constructor
  · have hz : (0 : ℝ) ≤ u * (Real.log 1000 - 0) + 0 := by
      simpa using mul_nonneg h0 (le_of_lt hlogpos)
    calc (1 : ℝ) = Real.exp 0 := Real.exp_zero.symm
    _ ≤ _ := Real.exp_le_exp.mpr hz
  · have hle : u * (Real.log 1000 - 0) + 0 ≤ Real.log 1000 := by
      simpa using mul_le_of_le_one_left (le_of_lt hlogpos) (le_of_lt h1)
    calc Real.exp (u * (Real.log 1000 - 0) + 0)
        ≤ Real.exp (Real.log 1000) := Real.exp_le_exp.mpr hle
    _ = 1000 := Real.exp_log (by norm_num)

/-- C5: `generateBenfordLawNumbers` fails with the invalid-length error if
and only if the requested count is not a positive integer (zero, negative
and fractional counts included), and succeeds on every positive integral
count. -/
theorem generateBenfordLawNumbers_invalid_length_iff (length : ℚ) (draws : ℕ → ℝ) :
    (generateBenfordLawNumbers length draws = .error .invalidLength ↔
      ¬(length.den = 1 ∧ 0 < length)) ∧
    (length.den = 1 ∧ 0 < length →
      ∃ l, generateBenfordLawNumbers length draws = .ok l) := by
  by_cases hcond : length.den ≠ 1 ∨ length ≤ 0
  · have herr : generateBenfordLawNumbers length draws = .error .invalidLength := by
      simp only [generateBenfordLawNumbers, if_pos hcond]
    have hnot : ¬(length.den = 1 ∧ 0 < length) := by
      rintro ⟨h1, h2⟩
      rcases hcond with h | h
      · exact h h1
      · exact absurd h2 (not_lt.mpr h)
    exact ⟨iff_of_true herr hnot, fun hc => absurd hc hnot⟩
  · have hok : generateBenfordLawNumbers length draws =
        .ok ((List.range length.num.toNat).map fun i => generateBenfordLawNumber (draws i)) := by
      simp only [generateBenfordLawNumbers, if_neg hcond]
    have hyes : length.den = 1 ∧ 0 < length := by
      rw [not_or] at hcond
      exact ⟨not_not.mp hcond.1, not_le.mp hcond.2⟩
    exact ⟨iff_of_false (by simp [hok]) (not_not_intro hyes), fun _ => ⟨_, hok⟩⟩

/-- Witness for `generateBenfordLawNumbers_invalid_length_iff`: the error
branch fires at count 0 and the success branch at count 3. -/
theorem generateBenfordLawNumbers_invalid_length_iff_witness :
    generateBenfordLawNumbers 0 (fun _ => 0) = .error .invalidLength ∧
    ((3 : ℚ).den = 1 ∧ (0 : ℚ) < 3 ∧
     ∃ l, generateBenfordLawNumbers 3 (fun _ => 0) = .ok l) :=
  ⟨(generateBenfordLawNumbers_invalid_length_iff 0 (fun _ => 0)).1.mpr (by decide),
   by decide, by decide,
   (generateBenfordLawNumbers_invalid_length_iff 3 (fun _ => 0)).2 (by decide)⟩

/-- C6: on a positive integral count n with all underlying draws in [0,1),
generation succeeds with exactly n elements, the i-th being the exponential
of the i-th draw rescaled to [ln 1, ln 1000), and every element lies in
[1, 1000] (and is in particular finite, all values of `ℝ` being finite). -/
theorem generateBenfordLawNumbers_length_and_range (length : ℚ) (draws : ℕ → ℝ)
    (hden : length.den = 1) (hpos : 0 < length)
    (hdraws : ∀ i, 0 ≤ draws i ∧ draws i < 1) :
    ∃ l, generateBenfordLawNumbers length draws = .ok l ∧
      (l.length : ℚ) = length ∧
      l = (List.range length.num.toNat).map (fun i => generateBenfordLawNumber (draws i)) ∧
      ∀ y ∈ l, 1 ≤ y ∧ y ≤ 1000 := by
  have hcond : ¬(length.den ≠ 1 ∨ length ≤ 0) := by
    push_neg
    exact ⟨hden, hpos⟩
  refine ⟨_, by simp only [generateBenfordLawNumbers, if_neg hcond], ?_, rfl, ?_⟩
  · have hnum : ((length.num : ℚ)) = length := by
      conv_rhs => rw [← Rat.num_div_den length]
      rw [hden]
      simp
    have hnumpos : 0 < length.num := Rat.num_pos.mpr hpos
    have htn : ((length.num.toNat : ℕ) : ℤ) = length.num :=
      Int.toNat_of_nonneg (le_of_lt hnumpos)
    simp only [List.length_map, List.length_range]
    rw [← hnum]
    exact_mod_cast htn
  · intro y hy
    obtain ⟨i, -, rfl⟩ := List.mem_map.mp hy
    exact generateBenfordLawNumber_range (draws i) (hdraws i).1 (hdraws i).2

/-- Witness for `generateBenfordLawNumbers_length_and_range` at count 2 with
all draws 0. -/
theorem generateBenfordLawNumbers_length_and_range_witness :
    ((2 : ℚ).den = 1 ∧ (0 : ℚ) < 2 ∧
      ∀ i : ℕ, 0 ≤ (fun _ : ℕ => (0 : ℝ)) i ∧ (fun _ : ℕ => (0 : ℝ)) i < 1) ∧
    (∃ l, generateBenfordLawNumbers 2 (fun _ : ℕ => (0 : ℝ)) = .ok l ∧
      (l.length : ℚ) = 2 ∧
      l = (List.range (2 : ℚ).num.toNat).map
            (fun i => generateBenfordLawNumber ((fun _ : ℕ => (0 : ℝ)) i)) ∧
      ∀ y ∈ l, 1 ≤ y ∧ y ≤ 1000) :=
  ⟨⟨by decide, by decide, fun _ => ⟨le_refl 0, by norm_num⟩⟩,
   generateBenfordLawNumbers_length_and_range 2 (fun _ => 0) (by decide) (by decide)
     (fun _ => ⟨le_refl 0, by norm_num⟩)⟩

/-! ### Claim theorems: analyzer -/

/-- C1: on a non-empty all-valid array with a threshold strictly inside
(0,1), the analyzer succeeds and its verdict is true exactly when every
digit key of the reference distribution has an observed probability (0 when
the digit is absent from the observed probabilities) within strictly less
than the threshold of its reference probability; one failing digit makes
the verdict false. -/
theorem processBenfordLaw_verdict_iff (numbers : List JSNum) (threshold : ℚ)
    (refDist : List (ℕ × ℚ))
    (hne : numbers ≠ []) (hval : ∀ x ∈ numbers, isValidNum x = true)
    (ht0 : 0 < threshold) (ht1 : threshold < 1) :
    ∃ r, processBenfordLaw numbers threshold refDist = .ok r ∧
      (r.isFollowingBenfordLaw = true ↔
        ∀ p ∈ refDist,
          |(List.lookup p.1 r.firstDigitProbabilities).getD 0 - p.2| < threshold) := by
  obtain ⟨ds, hds⟩ := extractDigits_ok numbers hval
  refine ⟨_, processBenfordLaw_ok numbers threshold refDist ds hne ht0 ht1 hds, ?_⟩
  show isBenfordCheck (probsFrom (countsFrom ds) numbers.length) refDist threshold = true ↔ _
  simp only [isBenfordCheck, List.all_eq_true, decide_eq_true_eq]

/-- Witness for `processBenfordLaw_verdict_iff` at the singleton array [1]
with threshold 1/2 and the standard reference. -/
theorem processBenfordLaw_verdict_iff_witness :
    ([JSNum.fin 1] ≠ [] ∧ (∀ x ∈ [JSNum.fin 1], isValidNum x = true) ∧
      (0 : ℚ) < 1/2 ∧ (1/2 : ℚ) < 1) ∧
    (∃ r, processBenfordLaw [JSNum.fin 1] (1/2) benfordProb = .ok r ∧
      (r.isFollowingBenfordLaw = true ↔
        ∀ p ∈ benfordProb,
          |(List.lookup p.1 r.firstDigitProbabilities).getD 0 - p.2| < 1/2)) :=
  ⟨⟨by decide, by decide, by norm_num, by norm_num⟩,
   processBenfordLaw_verdict_iff [JSNum.fin 1] (1/2) benfordProb (by decide) (by decide)
     (by norm_num) (by norm_num)⟩

/-- C3: on a non-empty all-valid array of N numbers, the counts sum to N,
the probabilities sum to 1, each probability is its digit's count divided
by N, and a digit extracted from no input element is absent from both the
count and the probability mappings. -/
theorem processBenfordLaw_counts_invariants (numbers : List JSNum) (threshold : ℚ)
    (refDist : List (ℕ × ℚ))
    (hne : numbers ≠ []) (hval : ∀ x ∈ numbers, isValidNum x = true)
    (ht0 : 0 < threshold) (ht1 : threshold < 1) :
    ∃ r, processBenfordLaw numbers threshold refDist = .ok r ∧
      ((r.firstDigitCounts.map Prod.snd).sum = numbers.length) ∧
      ((r.firstDigitProbabilities.map Prod.snd).sum = 1) ∧
      (∀ d c, List.lookup d r.firstDigitCounts = some c →
        List.lookup d r.firstDigitProbabilities = some ((c : ℚ) / numbers.length)) ∧
      (∀ d : ℕ, (¬∃ x ∈ numbers, getFirstDigit x = .ok d) →
        List.lookup d r.firstDigitCounts = none ∧
        List.lookup d r.firstDigitProbabilities = none) := by
  obtain ⟨ds, hds⟩ := extractDigits_ok numbers hval
  have hlen := extractDigits_length numbers ds hds
  refine ⟨_, processBenfordLaw_ok numbers threshold refDist ds hne ht0 ht1 hds,
    ?_, ?_, ?_, ?_⟩
  · show ((countsFrom ds).map Prod.snd).sum = numbers.length
    rw [countsFrom_sum, hlen]
  · show ((probsFrom (countsFrom ds) numbers.length).map Prod.snd).sum = 1
    rw [probsFrom_sum, countsFrom_sum, hlen]
    have h0 : (numbers.length : ℚ) ≠ 0 := by
      simpa using fun h => hne (List.length_eq_zero.mp h)
    exact div_self h0
  · intro d c hc
    show List.lookup d (probsFrom (countsFrom ds) numbers.length) = _
    have hc' : List.lookup d (countsFrom ds) = some c := hc
    rw [lookup_probsFrom, hc']
    rfl
  · intro d hd
    have hmem : d ∉ ds := fun hm => hd ((extractDigits_mem numbers ds hds d).mp hm)
    have hcnone := countsFrom_lookup_none ds d hmem
    refine ⟨hcnone, ?_⟩
    show List.lookup d (probsFrom (countsFrom ds) numbers.length) = none
    rw [lookup_probsFrom, hcnone]
    rfl

/-- Witness for `processBenfordLaw_counts_invariants` at the singleton
array [1] with threshold 1/2 and the standard reference. -/
theorem processBenfordLaw_counts_invariants_witness :
    ([JSNum.fin 1] ≠ [] ∧ (∀ x ∈ [JSNum.fin 1], isValidNum x = true) ∧
      (0 : ℚ) < 1/2 ∧ (1/2 : ℚ) < 1) ∧
    (∃ r, processBenfordLaw [JSNum.fin 1] (1/2) benfordProb = .ok r ∧
      ((r.firstDigitCounts.map Prod.snd).sum = [JSNum.fin 1].length) ∧
      ((r.firstDigitProbabilities.map Prod.snd).sum = 1) ∧
      (∀ d c, List.lookup d r.firstDigitCounts = some c →
        List.lookup d r.firstDigitProbabilities = some ((c : ℚ) / [JSNum.fin 1].length)) ∧
      (∀ d : ℕ, (¬∃ x ∈ [JSNum.fin 1], getFirstDigit x = .ok d) →
        List.lookup d r.firstDigitCounts = none ∧
        List.lookup d r.firstDigitProbabilities = none)) :=
  ⟨⟨by decide, by decide, by norm_num, by norm_num⟩,
   processBenfordLaw_counts_invariants [JSNum.fin 1] (1/2) benfordProb (by decide)
     (by decide) (by norm_num) (by norm_num)⟩

/-- The accuracy loop produces nothing when the reference distribution has
no entries. -/
lemma accuraciesFrom_nil_ref (probs : List (ℕ × ℚ)) : accuraciesFrom probs [] = [] := by
  induction probs with
  | nil => rfl
  | cons p rest ih =>
    simp only [accuraciesFrom, List.filterMap_cons, List.lookup_nil, Option.map_none'] at ih ⊢
    exact ih

/-- C2 counterexample: on the input [1] with the standard reference, digit 2
has a reference probability but no accuracy entry — the accuracy mapping is
not populated for every reference digit, contradicting the claim that a
reference digit absent from the input appears with value
|0 − reference probability|. -/
theorem processBenfordLaw_accuracies_counterexample :
    ∃ r, processBenfordLaw [JSNum.fin 1] (1/2) benfordProb = .ok r ∧
      List.lookup 2 benfordProb = some (176/1000) ∧
      List.lookup 2 r.firstDigitAccuracies = none := by
  have h1 : getFirstDigit (.fin (1 : ℚ)) = .ok 1 := by
    simpa using getFirstDigit_digit 1 (le_refl 1) (by norm_num)
  have hds : extractDigits [JSNum.fin 1] = .ok [1] := by
    simp [extractDigits, h1]
  refine ⟨_, processBenfordLaw_ok [JSNum.fin 1] (1/2) benfordProb [1] (by decide)
    (by norm_num) (by norm_num) hds, rfl, ?_⟩
  rfl

/-- C2 amended: the accuracy mapping has an entry exactly for each digit
that both occurs in the input (has an observed probability) and is present
in the reference distribution, and that entry is the absolute difference of
the two probabilities; reference digits that never occur in the input get
no entry. -/
theorem processBenfordLaw_accuracies_characterization (numbers : List JSNum)
    (threshold : ℚ) (refDist : List (ℕ × ℚ))
    (hne : numbers ≠ []) (hval : ∀ x ∈ numbers, isValidNum x = true)
    (ht0 : 0 < threshold) (ht1 : threshold < 1) :
    ∃ r, processBenfordLaw numbers threshold refDist = .ok r ∧
      ∀ d : ℕ, List.lookup d r.firstDigitAccuracies =
        (List.lookup d r.firstDigitProbabilities).bind fun p =>
          (List.lookup d refDist).map fun bp => |bp - p| := by
  obtain ⟨ds, hds⟩ := extractDigits_ok numbers hval
  refine ⟨_, processBenfordLaw_ok numbers threshold refDist ds hne ht0 ht1 hds,
    fun d => ?_⟩
  show List.lookup d
      (accuraciesFrom (probsFrom (countsFrom ds) numbers.length) refDist) = _
  have hnd : ((probsFrom (countsFrom ds) (numbers.length : ℚ)).map Prod.fst).Nodup := by
    rw [keys_probsFrom]
    exact countsFrom_nodup ds
  exact lookup_accuraciesFrom _ _ hnd d

/-- Witness for `processBenfordLaw_accuracies_characterization` at the
singleton array [1] with threshold 1/2 and the standard reference. -/
theorem processBenfordLaw_accuracies_characterization_witness :
    ([JSNum.fin 1] ≠ [] ∧ (∀ x ∈ [JSNum.fin 1], isValidNum x = true) ∧
      (0 : ℚ) < 1/2 ∧ (1/2 : ℚ) < 1) ∧
    (∃ r, processBenfordLaw [JSNum.fin 1] (1/2) benfordProb = .ok r ∧
      ∀ d : ℕ, List.lookup d r.firstDigitAccuracies =
        (List.lookup d r.firstDigitProbabilities).bind fun p =>
          (List.lookup d benfordProb).map fun bp => |bp - p|) :=
  ⟨⟨by decide, by decide, by norm_num, by norm_num⟩,
   processBenfordLaw_accuracies_characterization [JSNum.fin 1] (1/2) benfordProb
     (by decide) (by decide) (by norm_num) (by norm_num)⟩

/-- C8: an analysis whose input contains an invalid element (all elements
before it being valid) fails with exactly the digit-extraction error of
that first invalid element — the finiteness or sign error, propagated
unchanged — and returns no report. -/
theorem processBenfordLaw_first_invalid_error (pre : List JSNum) (x : JSNum)
    (post : List JSNum) (threshold : ℚ) (refDist : List (ℕ × ℚ))
    (ht0 : 0 < threshold) (ht1 : threshold < 1)
    (hpre : ∀ y ∈ pre, isValidNum y = true) (hx : isValidNum x = false) :
    getFirstDigit x = .error (extractionError x) ∧
    (extractionError x = .notFinite ∨ extractionError x = .nonPositive) ∧
    processBenfordLaw (pre ++ x :: post) threshold refDist =
      .error (extractionError x) := by
  have hne : pre ++ x :: post ≠ [] := by simp
  have hext := extractDigits_error_first pre x post hpre hx
  refine ⟨isValidNum_error x hx, ?_,
    processBenfordLaw_extract_error _ threshold refDist _ hne ht0 ht1 hext⟩
  cases x with
  | fin q => exact Or.inr rfl
  | nan => exact Or.inl rfl
  | inf => exact Or.inl rfl
  | negInf => exact Or.inl rfl

/-- Witness for `processBenfordLaw_first_invalid_error`: the array
[1, NaN, 0] fails with the finiteness error of its first invalid element
NaN. -/
theorem processBenfordLaw_first_invalid_error_witness :
    ((0 : ℚ) < 1/2 ∧ (1/2 : ℚ) < 1 ∧
      (∀ y ∈ [JSNum.fin 1], isValidNum y = true) ∧ isValidNum .nan = false) ∧
    (getFirstDigit .nan = .error (extractionError .nan) ∧
     (extractionError .nan = .notFinite ∨ extractionError .nan = .nonPositive) ∧
     processBenfordLaw ([JSNum.fin 1] ++ .nan :: [JSNum.fin 0]) (1/2) benfordProb =
       .error (extractionError .nan)) :=
  ⟨⟨by norm_num, by norm_num, by decide, by decide⟩,
   processBenfordLaw_first_invalid_error [JSNum.fin 1] .nan [JSNum.fin 0] (1/2)
     benfordProb (by norm_num) (by norm_num) (by decide) (by decide)⟩

/-- C9: validation order at the analyzer boundary — an empty array is
rejected as empty even when the threshold is also invalid, and a non-empty
array containing invalid elements is rejected for its invalid threshold
before any element is examined. -/
theorem processBenfordLaw_validation_order (numbers : List JSNum) (threshold : ℚ)
    (refDist : List (ℕ × ℚ)) (hne : numbers ≠ [])
    (_hinv : ∃ x ∈ numbers, isValidNum x = false)
    (ht : threshold ≤ 0 ∨ 1 ≤ threshold) :
    processBenfordLaw numbers threshold refDist = .error .invalidThreshold ∧
    ∀ (t' : ℚ) (refDist' : List (ℕ × ℚ)), t' ≤ 0 ∨ 1 ≤ t' →
      processBenfordLaw [] t' refDist' = .error .emptyInput :=
  ⟨processBenfordLaw_threshold numbers threshold refDist hne ht,
   fun t' refDist' _ => processBenfordLaw_empty t' refDist'⟩

/-- Witness for `processBenfordLaw_validation_order`: the singleton array
[0] (an invalid element) with threshold 2 is rejected for its threshold,
and the empty array with threshold 2 is rejected as empty. -/
theorem processBenfordLaw_validation_order_witness :
    ([JSNum.fin 0] ≠ [] ∧ (∃ x ∈ [JSNum.fin 0], isValidNum x = false) ∧
      ((2 : ℚ) ≤ 0 ∨ (1 : ℚ) ≤ 2)) ∧
    (processBenfordLaw [JSNum.fin 0] 2 benfordProb = .error .invalidThreshold ∧
     ∀ (t' : ℚ) (refDist' : List (ℕ × ℚ)), t' ≤ 0 ∨ 1 ≤ t' →
       processBenfordLaw [] t' refDist' = .error .emptyInput) :=
  ⟨⟨by decide, by decide, Or.inr (by decide)⟩,
   processBenfordLaw_validation_order [JSNum.fin 0] 2 benfordProb (by decide)
     (by decide) (Or.inr (by decide))⟩

/-- C10: with an empty caller-supplied reference distribution, the analyzer
still succeeds on a non-empty all-valid array: the verdict is vacuously
true, the accuracy mapping is empty, and the counts and probabilities are
populated from the input (non-empty, summing to N and to 1). -/
theorem processBenfordLaw_empty_reference (numbers : List JSNum) (threshold : ℚ)
    (hne : numbers ≠ []) (hval : ∀ x ∈ numbers, isValidNum x = true)
    (ht0 : 0 < threshold) (ht1 : threshold < 1) :
    ∃ r, processBenfordLaw numbers threshold [] = .ok r ∧
      r.isFollowingBenfordLaw = true ∧
      r.firstDigitAccuracies = [] ∧
      r.firstDigitCounts ≠ [] ∧
      (r.firstDigitCounts.map Prod.snd).sum = numbers.length ∧
      (r.firstDigitProbabilities.map Prod.snd).sum = 1 := by
  obtain ⟨ds, hds⟩ := extractDigits_ok numbers hval
  have hlen := extractDigits_length numbers ds hds
  have hsum : ((countsFrom ds).map Prod.snd).sum = numbers.length := by
    rw [countsFrom_sum, hlen]
  refine ⟨_, processBenfordLaw_ok numbers threshold [] ds hne ht0 ht1 hds,
    rfl, accuraciesFrom_nil_ref _, ?_, hsum, ?_⟩
  · show countsFrom ds ≠ []
    intro hcc
    rw [hcc] at hsum
    simp only [List.map_nil, List.sum_nil] at hsum
    exact hne (List.length_eq_zero.mp hsum.symm)
  · show ((probsFrom (countsFrom ds) numbers.length).map Prod.snd).sum = 1
    rw [probsFrom_sum, countsFrom_sum, hlen]
    have h0 : (numbers.length : ℚ) ≠ 0 := by
      simpa using fun h => hne (List.length_eq_zero.mp h)
    exact div_self h0

/-- Witness for `processBenfordLaw_empty_reference` at the singleton array
[1] with threshold 1/2. -/
theorem processBenfordLaw_empty_reference_witness :
    ([JSNum.fin 1] ≠ [] ∧ (∀ x ∈ [JSNum.fin 1], isValidNum x = true) ∧
      (0 : ℚ) < 1/2 ∧ (1/2 : ℚ) < 1) ∧
    (∃ r, processBenfordLaw [JSNum.fin 1] (1/2) [] = .ok r ∧
      r.isFollowingBenfordLaw = true ∧
      r.firstDigitAccuracies = [] ∧
      r.firstDigitCounts ≠ [] ∧
      (r.firstDigitCounts.map Prod.snd).sum = [JSNum.fin 1].length ∧
      (r.firstDigitProbabilities.map Prod.snd).sum = 1) :=
  ⟨⟨by decide, by decide, by norm_num, by norm_num⟩,
   processBenfordLaw_empty_reference [JSNum.fin 1] (1/2) (by decide) (by decide)
     (by norm_num) (by norm_num)⟩
